import Mathlib

/-
Verification development for the TaskFlow todo-list application.

The embedding below follows the modular implementation (js/taskModel.js and
the applyFiltersAndSort projection of main.js).  JavaScript is modelled as
follows:

* machine clock readings are explicit parameters: Date.now() becomes a
  nowMs : Int argument and new Date().toISOString() a nowISO : String
  argument (ISO timestamps are kept as strings, as in the code);
* the task collection and the one-slot undo buffer form a TaskModel record,
  and each method becomes a pure function returning its JS return value
  together with the successor state;
* JSON values (the results of JSON.parse and the arguments of
  JSON.stringify) are an inductive Json type; JS property access, truthiness
  and the Number/String conversions used by importTasks are modelled on it;
* Array.prototype.sort with a comparator is modelled as a stable insertion
  sort (ECMAScript requires sort to be stable; the comparator decides order
  through the sign of its result, and a NaN comparator result counts as 0).
-/

namespace TodoList

/-- Subtask record, shape { id, text, completed } from taskModel.js. -/
structure Subtask where
  id : Int
  text : String
  completed : Bool
deriving DecidableEq, Inhabited

/-- Task record, the object shape documented at the top of taskModel.js.
dueDate and completedAt are string-or-null in the code, hence Option String. -/
structure Task where
  id : Int
  text : String
  completed : Bool
  priority : String
  category : String
  dueDate : Option String
  tags : List String
  notes : String
  subtasks : List Subtask
  createdAt : String
  completedAt : Option String
deriving DecidableEq, Inhabited

/-- State of the TaskModel class: the tasks array and the deletedTask
one-slot undo buffer holding a removed task with its original index. -/
structure TaskModel where
  tasks : List Task
  deletedTask : Option (Task × Nat)
deriving DecidableEq, Inhabited

/-- Argument object of addTask, with the default values of the
destructuring pattern in the code. -/
structure Draft where
  text : String
  priority : String := "medium"
  category : String := "personal"
  dueDate : Option String := none
  tags : List String := []

/- String builtins of JavaScript used by the code, modelled on the
character list of the string so that every definition evaluates by kernel
reduction. -/

/-- Model of String.prototype.trim: drop whitespace from both ends. -/
def jsTrim (s : String) : String :=
  ⟨((s.data.dropWhile Char.isWhitespace).reverse.dropWhile
      Char.isWhitespace).reverse⟩

/-- Model of String.prototype.toLowerCase on the basic alphabet. -/
def jsToLower (s : String) : String :=
  ⟨s.data.map Char.toLower⟩

/-- Digit-sequence parser for the string case of the JS Number conversion. -/
def strToIntAux : List Char → Nat → Option Nat
  | [], acc => some acc
  | c :: cs, acc =>
    if c.isDigit then strToIntAux cs (10 * acc + (c.toNat - 48)) else none

/-- Model of the JS Number conversion of a non-blank string on the decimal
integer fragment (none models NaN). -/
def strToInt (s : String) : Option Int :=
  match s.data with
  | [] => none
  | '-' :: cs =>
    if cs.isEmpty then none
    else (strToIntAux cs 0).map (fun n => -(n : Int))
  | '+' :: cs =>
    if cs.isEmpty then none
    else (strToIntAux cs 0).map (fun n => (n : Int))
  | cs => (strToIntAux cs 0).map (fun n => (n : Int))

/-- Code point comparison of two character lists. -/
def charListLt : List Char → List Char → Bool
  | [], [] => false
  | [], _ :: _ => true
  | _ :: _, [] => false
  | a :: as, b :: bs =>
    if a.toNat < b.toNat then true
    else if b.toNat < a.toNat then false
    else charListLt as bs

/- List primitives mirroring the array operations used by the code.
They are spelled out recursively so that all facts about them are proved
by structural induction in this file. -/

/-- Model of Array.prototype.findIndex: index of the first element
satisfying p, with the -1 result modelled as none. -/
def findIndex (p : α → Bool) : List α → Option Nat
  | [] => none
  | a :: l => if p a then some 0 else (findIndex p l).map (· + 1)

/-- Model of reading arr[i] at a known-good index (with a default that is
never reached when i is in bounds). -/
def nth (d : α) : List α → Nat → α
  | [], _ => d
  | a :: _, 0 => a
  | _ :: l, i + 1 => nth d l i

/-- Model of the assignment arr[i] = a. -/
def setAt (a : α) : List α → Nat → List α
  | [], _ => []
  | _ :: l, 0 => a :: l
  | b :: l, i + 1 => b :: setAt a l i

/-- Model of arr.splice(i, 1): remove the element at index i. -/
def spliceRemove : List α → Nat → List α
  | [], _ => []
  | _ :: l, 0 => l
  | b :: l, i + 1 => b :: spliceRemove l i

/-- Model of arr.splice(i, 0, a): insert a at index i, clamped to the end
of the array when i exceeds its length. -/
def spliceInsert (a : α) : List α → Nat → List α
  | l, 0 => a :: l
  | [], _ + 1 => [a]
  | b :: l, i + 1 => b :: spliceInsert a l i

/- The TaskModel operations, one per method of the class. -/

/-- Method addTask: builds the new task from the draft (trimming text,
normalizing falsy dueDate to null, trimming and dropping empty tags),
prepends it with unshift, and returns it.  The id is Date.now() and
createdAt is new Date().toISOString(), passed as nowMs / nowISO. -/
def addTask (m : TaskModel) (d : Draft) (nowMs : Int) (nowISO : String) :
    Task × TaskModel :=
  let task : Task :=
    { id := nowMs
      text := jsTrim d.text
      completed := false
      priority := d.priority
      category := d.category
      dueDate := match d.dueDate with
        | some s => if s = "" then none else some s
        | none => none
      tags := (d.tags.map jsTrim).filter (fun s => s ≠ "")
      notes := ""
      subtasks := []
      createdAt := nowISO
      completedAt := none }
  (task, { m with tasks := task :: m.tasks })

/-- Patch object of updateTask: an object literal may provide any subset of
the task fields, so every field is optional here; the spread
{ ...task, ...patch } keeps a field of task exactly when the patch omits it. -/
structure Patch where
  id : Option Int := none
  text : Option String := none
  completed : Option Bool := none
  priority : Option String := none
  category : Option String := none
  dueDate : Option (Option String) := none
  tags : Option (List String) := none
  notes : Option String := none
  subtasks : Option (List Subtask) := none
  createdAt : Option String := none
  completedAt : Option (Option String) := none

/-- Model of the spread { ...task, ...patch }. -/
def mergePatch (t : Task) (p : Patch) : Task :=
  { id := p.id.getD t.id
    text := p.text.getD t.text
    completed := p.completed.getD t.completed
    priority := p.priority.getD t.priority
    category := p.category.getD t.category
    dueDate := p.dueDate.getD t.dueDate
    tags := p.tags.getD t.tags
    notes := p.notes.getD t.notes
    subtasks := p.subtasks.getD t.subtasks
    createdAt := p.createdAt.getD t.createdAt
    completedAt := p.completedAt.getD t.completedAt }

/-- Method updateTask: findIndex on id, null when absent, otherwise replace
the task at that index by the spread merge and return it. -/
def updateTask (m : TaskModel) (id : Int) (p : Patch) :
    Option Task × TaskModel :=
  match findIndex (fun t => t.id == id) m.tasks with
  | none => (none, m)
  | some idx =>
    let updated := mergePatch (nth default m.tasks idx) p
    (some updated, { m with tasks := setAt updated m.tasks idx })

/-- Body of toggleTask on the found task: flip completed, and set
completedAt to the current ISO time when now completed, null otherwise. -/
def toggledTask (t : Task) (nowISO : String) : Task :=
  { t with
    completed := !t.completed
    completedAt := if !t.completed then some nowISO else none }

/-- Method toggleTask: find the task by id and apply the flip above. -/
def toggleTask (m : TaskModel) (id : Int) (nowISO : String) :
    Option Task × TaskModel :=
  match findIndex (fun t => t.id == id) m.tasks with
  | none => (none, m)
  | some idx =>
    let t' := toggledTask (nth default m.tasks idx) nowISO
    (some t', { m with tasks := setAt t' m.tasks idx })

/-- Return value of deleteTask: the method returns null on a miss and
otherwise the undo-buffer object { task, index } it just stored; the
task constructor expresses the reading in which a bare Task is returned. -/
inductive DeleteResult where
  | null
  | task (t : Task)
  | entry (t : Task) (index : Nat)
deriving DecidableEq

/-- Method deleteTask: findIndex on id, null when absent, otherwise store
{ task, index } in deletedTask (overwriting it), splice the task out, and
return the stored entry. -/
def deleteTask (m : TaskModel) (id : Int) : DeleteResult × TaskModel :=
  match findIndex (fun t => t.id == id) m.tasks with
  | none => (.null, m)
  | some idx =>
    let t := nth default m.tasks idx
    (.entry t idx,
     { tasks := spliceRemove m.tasks idx, deletedTask := some (t, idx) })

/-- Method undoDelete: null when the buffer is empty, otherwise splice the
buffered task back in at its stored index, clear the buffer, and return
the task. -/
def undoDelete (m : TaskModel) : Option Task × TaskModel :=
  match m.deletedTask with
  | none => (none, m)
  | some (t, idx) =>
    (some t, { tasks := spliceInsert t m.tasks idx, deletedTask := none })

/-- Method clearCompleted: keep only the non-completed tasks. -/
def clearCompleted (m : TaskModel) : TaskModel :=
  { m with tasks := m.tasks.filter (fun t => !t.completed) }

/-- Method addSubtask: null when the task is absent or the text trims to
empty; otherwise push a fresh subtask (id Date.now()) and return it. -/
def addSubtask (m : TaskModel) (taskId : Int) (text : String) (nowMs : Int) :
    Option Subtask × TaskModel :=
  match findIndex (fun t => t.id == taskId) m.tasks with
  | none => (none, m)
  | some idx =>
    if jsTrim text = "" then (none, m)
    else
      let t := nth default m.tasks idx
      let st : Subtask := { id := nowMs, text := jsTrim text, completed := false }
      (some st,
       { m with tasks := setAt { t with subtasks := t.subtasks ++ [st] } m.tasks idx })

/-- Method toggleSubtask: find the task, then the subtask, and flip the
completed flag of the subtask; null when either id is absent. -/
def toggleSubtask (m : TaskModel) (taskId subtaskId : Int) :
    Option Subtask × TaskModel :=
  match findIndex (fun t => t.id == taskId) m.tasks with
  | none => (none, m)
  | some idx =>
    let t := nth default m.tasks idx
    match findIndex (fun s => s.id == subtaskId) t.subtasks with
    | none => (none, m)
    | some j =>
      let st := nth default t.subtasks j
      let st' : Subtask := { st with completed := !st.completed }
      (some st',
       { m with tasks := setAt { t with subtasks := setAt st' t.subtasks j } m.tasks idx })

/-- Method updateNotes: replace notes verbatim (String of a string is the
string itself) and return the task; null when the task is absent. -/
def updateNotes (m : TaskModel) (taskId : Int) (notes : String) :
    Option Task × TaskModel :=
  match findIndex (fun t => t.id == taskId) m.tasks with
  | none => (none, m)
  | some idx =>
    let t := nth default m.tasks idx
    let t' : Task := { t with notes := notes }
    (some t', { m with tasks := setAt t' m.tasks idx })

/- Import and export.  JSON.stringify / JSON.parse connect the tasks array
with a JSON document; the document itself is modelled by the Json type, so
exportTasks produces the Json value that would be serialized, and the
importTasks method consumes the Json value that parsing would produce (a payload
that does not parse behaves like any non-array payload: the import fails). -/

/-- JavaScript values occurring in import payloads: the JSON value forms
plus undefined, which property access yields for a missing field. -/
inductive Json where
  | null
  | undefined
  | bool (b : Bool)
  | num (n : Int)
  | str (s : String)
  | arr (elems : List Json)
  | obj (fields : List (String × Json))

/-- JS truthiness of a value (NaN does not arise because numbers are
modelled as integers). -/
def truthy : Json → Bool
  | .null => false
  | .undefined => false
  | .bool b => b
  | .num n => n != 0
  | .str s => s != ""
  | .arr _ => true
  | .obj _ => true

/-- Property access p.k for non-null p: field lookup on objects (last
duplicate key wins, as in JS), undefined on any other value.  Access on
null or undefined throws and is handled separately in coerceTask. -/
def getFieldD (j : Json) (k : String) : Json :=
  match j with
  | .obj fs => (fs.reverse.lookup k).getD .undefined
  | _ => .undefined

/-- Model of the JS Number conversion on the integer fragment: the empty
and blank strings convert to 0, integer literals to their value, anything
else to NaN (represented by none).  Arrays and objects are modelled only
through the empty-array case, the only one with a non-NaN value that
the import coercion could meet. -/
def toNumber : Json → Option Int
  | .null => some 0
  | .undefined => none
  | .bool b => some (if b then 1 else 0)
  | .num n => some n
  | .str s => if jsTrim s = "" then some 0 else strToInt (jsTrim s)
  | .arr es => if es.isEmpty then some 0 else none
  | .obj _ => none

mutual

/-- Model of the JS String conversion (array elements that are null or
undefined render as the empty string inside a join, as in JS). -/
def jsToString : Json → String
  | .null => "null"
  | .undefined => "undefined"
  | .bool b => if b then "true" else "false"
  | .num n => toString n
  | .str s => s
  | .arr es => String.intercalate "," (jsToStringList es)
  | .obj _ => "[object Object]"

/-- String conversion of the elements of an array, for the join above. -/
def jsToStringList : List Json → List String
  | [] => []
  | .null :: js => "" :: jsToStringList js
  | .undefined :: js => "" :: jsToStringList js
  | j :: js => jsToString j :: jsToStringList js

end

/-- Coercion of one raw subtask element.  The code stores the raw parsed
subtasks array without touching its elements; the typed model normalizes
each element to the documented Subtask shape (field reads that keep
well-typed values unchanged). -/
def coerceSubtask (j : Json) : Subtask :=
  { id := (toNumber (getFieldD j "id")).getD 0
    text := match getFieldD j "text" with | .str s => s | _ => ""
    completed := truthy (getFieldD j "completed") }

/-- Detector of the values on which JS property access throws a TypeError:
null and undefined. -/
def isNullish : Json → Bool
  | .null => true
  | .undefined => true
  | _ => false

/-- Field part of the import coercion, following the map body of the
importTasks method: each field is defended with the defaults of the code.
freshId stands for Date.now() plus the random offset used when the id is
missing or falsy; nowISO for new Date().toISOString().  Raw JSON values
that the code would store unchanged in string positions are represented
through their JS string form. -/
def coerceFields (p : Json) (freshId : Int) (nowISO : String) : Task :=
  { id :=
      match toNumber (getFieldD p "id") with
      | some n => if n = 0 then freshId else n
      | none => freshId
    text :=
      if truthy (getFieldD p "text") then jsToString (getFieldD p "text")
      else ""
    completed := truthy (getFieldD p "completed")
    priority :=
      if truthy (getFieldD p "priority") then jsToString (getFieldD p "priority")
      else "medium"
    category :=
      if truthy (getFieldD p "category") then jsToString (getFieldD p "category")
      else "personal"
    dueDate :=
      if truthy (getFieldD p "dueDate") then some (jsToString (getFieldD p "dueDate"))
      else none
    tags :=
      match getFieldD p "tags" with
      | .arr es => es.map jsToString
      | _ => []
    notes :=
      if truthy (getFieldD p "notes") then jsToString (getFieldD p "notes")
      else ""
    subtasks :=
      match getFieldD p "subtasks" with
      | .arr es => es.map coerceSubtask
      | _ => []
    createdAt :=
      if truthy (getFieldD p "createdAt") then jsToString (getFieldD p "createdAt")
      else nowISO
    completedAt :=
      if truthy (getFieldD p "completedAt") then some (jsToString (getFieldD p "completedAt"))
      else none }

/-- Coercion of one element of an import payload: property access on a
null (or undefined) element throws, which the Except error records;
otherwise the fields are coerced as above. -/
def coerceTask (p : Json) (freshId : Int) (nowISO : String) :
    Except Unit Task :=
  if isNullish p then .error () else .ok (coerceFields p freshId nowISO)

/-- Coercion of a whole payload array, one fresh id per element position;
the first throwing element aborts the map, as an exception would. -/
def coerceAll (fresh : Nat → Int) (nowISO : String) :
    Nat → List Json → Except Unit (List Task)
  | _, [] => .ok []
  | i, p :: ps =>
    match coerceTask p (fresh i) nowISO, coerceAll fresh nowISO (i + 1) ps with
    | .ok t, .ok ts => .ok (t :: ts)
    | _, _ => .error ()

/-- Method importTasks: reject any non-array payload; map the coercion over
an array payload and replace the tasks array on success; any thrown error
is caught and reported as false, leaving the state untouched. -/
def importTasks (m : TaskModel) (payload : Json) (fresh : Nat → Int)
    (nowISO : String) : Bool × TaskModel :=
  match payload with
  | .arr es =>
    match coerceAll fresh nowISO 0 es with
    | .ok ts => (true, { m with tasks := ts })
    | .error _ => (false, m)
  | _ => (false, m)

/-- Serialization of a subtask, as JSON.stringify sees it. -/
def subtaskToJson (st : Subtask) : Json :=
  .obj [("id", .num st.id), ("text", .str st.text),
        ("completed", .bool st.completed)]

/-- Serialization of a task: every own field in declaration order, with
null for an absent dueDate or completedAt. -/
def taskToJson (t : Task) : Json :=
  .obj [("id", .num t.id), ("text", .str t.text),
        ("completed", .bool t.completed), ("priority", .str t.priority),
        ("category", .str t.category),
        ("dueDate", match t.dueDate with | some s => .str s | none => .null),
        ("tags", .arr (t.tags.map Json.str)), ("notes", .str t.notes),
        ("subtasks", .arr (t.subtasks.map subtaskToJson)),
        ("createdAt", .str t.createdAt),
        ("completedAt", match t.completedAt with
          | some s => .str s | none => .null)]

/-- Method exportTasks: JSON.stringify of the tasks array, modelled as the
Json document being serialized. -/
def exportTasks (m : TaskModel) : Json :=
  .arr (m.tasks.map taskToJson)

/- View projection: applyFiltersAndSort from main.js together with the
state record it reads.  Date parsing (new Date(s) followed by numeric
subtraction) is abstracted by an explicit dateVal : String → Int parameter
giving the millisecond value of a date string; every theorem below holds
for an arbitrary dateVal. -/

/-- Filter and sort state of main.js. -/
structure FilterState where
  currentFilter : String := "all"
  currentCategory : String := "all"
  currentSort : String := "date-desc"
  searchQuery : String := ""

/-- Model of String.prototype.includes: the empty pattern occurs in every
string, a non-empty pattern occurs when splitting on it cuts the string. -/
def sIncludes (s pat : String) : Bool :=
  if pat = "" then true else (s.splitOn pat).length != 1

/-- Stable insertion of an element into an already processed suffix: the
element goes before the first b with comparator result at most 0, so that
elements comparing equal keep their original relative order. -/
def insertStable (c : α → α → Int) (a : α) : List α → List α
  | [] => [a]
  | b :: l => if c a b ≤ 0 then a :: b :: l else b :: insertStable c a l

/-- Model of Array.prototype.sort with a comparator, as a stable
insertion sort. -/
def jsSort (c : α → α → Int) : List α → List α
  | [] => []
  | a :: l => insertStable c a (jsSort c l)

/-- Comparator of the date-desc branch. -/
def cmpDateDesc (dateVal : String → Int) (a b : Task) : Int :=
  dateVal b.createdAt - dateVal a.createdAt

/-- Comparator of the date-asc branch. -/
def cmpDateAsc (dateVal : String → Int) (a b : Task) : Int :=
  dateVal a.createdAt - dateVal b.createdAt

/-- Numeric rank of a priority per the order table; none models the
undefined lookup of any other string. -/
def priorityNum (p : String) : Option Int :=
  if p = "high" then some 3
  else if p = "medium" then some 2
  else if p = "low" then some 1
  else none

/-- Comparator of the priority branch; an undefined rank makes the
subtraction NaN, which the sort treats as 0. -/
def cmpPriority (a b : Task) : Int :=
  match priorityNum b.priority, priorityNum a.priority with
  | some x, some y => x - y
  | _, _ => 0

/-- Model of localeCompare as code point order. -/
def strCmp (a b : String) : Int :=
  if charListLt a.data b.data then -1
  else if charListLt b.data a.data then 1
  else 0

/-- Comparator of the alphabetical branch. -/
def cmpAlpha (a b : Task) : Int := strCmp a.text b.text

/-- Comparator of the duedate branch: a task without dueDate compares
greater regardless of which side it is on, otherwise the date values are
subtracted. -/
def cmpDue (dateVal : String → Int) (a b : Task) : Int :=
  match a.dueDate with
  | none => 1
  | some da =>
    match b.dueDate with
    | none => -1
    | some db => dateVal da - dateVal db

/-- Comparator of the category branch. -/
def cmpCategory (a b : Task) : Int := strCmp a.category b.category

/-- Filtering stages of applyFiltersAndSort: status filter, category
filter, then search over lowercased text, notes (only when truthy) and
tags. -/
def applyFilters (state : FilterState) (tasks : List Task) : List Task :=
  let out := tasks
  let out :=
    if state.currentFilter = "active" then out.filter (fun t => !t.completed)
    else if state.currentFilter = "completed" then
      out.filter (fun t => t.completed)
    else out
  let out :=
    if state.currentCategory ≠ "all" then
      out.filter (fun t => t.category == state.currentCategory)
    else out
  if state.searchQuery ≠ "" then
    let q := jsToLower state.searchQuery
    out.filter (fun t =>
      sIncludes (jsToLower t.text) q ||
      (t.notes != "" && sIncludes (jsToLower t.notes) q) ||
      t.tags.any (fun tag => sIncludes (jsToLower tag) q))
  else out

/-- Function applyFiltersAndSort of main.js: the filter pipeline above
followed by the switch on the sort key. -/
def applyFiltersAndSort (dateVal : String → Int) (state : FilterState)
    (tasks : List Task) : List Task :=
  let out := applyFilters state tasks
  match state.currentSort with
  | "date-desc" => jsSort (cmpDateDesc dateVal) out
  | "date-asc" => jsSort (cmpDateAsc dateVal) out
  | "priority" => jsSort cmpPriority out
  | "alphabetical" => jsSort cmpAlpha out
  | "duedate" => jsSort (cmpDue dateVal) out
  | "category" => jsSort cmpCategory out
  | _ => out

/- Facts about the list primitives. -/

theorem findIndex_lt_length {p : α → Bool} {l : List α} {i : Nat}
    (h : findIndex p l = some i) : i < l.length := by
  induction l generalizing i with
  | nil => simp [findIndex] at h
  | cons a l ih =>
    simp only [findIndex] at h
    split at h
    · simp only [Option.some.injEq] at h
      simp [← h]
    · cases hfl : findIndex p l with
      | none => rw [hfl] at h; simp at h
      | some j =>
        rw [hfl] at h
        simp only [Option.map_some', Option.some.injEq] at h
        have := ih hfl
        simp only [List.length_cons]
        omega

theorem findIndex_nth {p : α → Bool} {l : List α} {i : Nat} (d : α)
    (h : findIndex p l = some i) : p (nth d l i) = true := by
  induction l generalizing i with
  | nil => simp [findIndex] at h
  | cons a l ih =>
    simp only [findIndex] at h
    split at h
    · simp only [Option.some.injEq] at h
      subst h
      simpa [nth]
    · cases hfl : findIndex p l with
      | none => rw [hfl] at h; simp at h
      | some j =>
        rw [hfl] at h
        simp only [Option.map_some', Option.some.injEq] at h
        subst h
        simpa [nth] using ih hfl

theorem findIndex_eq_none {p : α → Bool} {l : List α}
    (h : ∀ x ∈ l, p x = false) : findIndex p l = none := by
  induction l with
  | nil => rfl
  | cons a l ih =>
    have ha := h a (by simp)
    simp [findIndex, ha, ih fun x hx => h x (by simp [hx])]

theorem nth_mem {l : List α} {i : Nat} (d : α) (h : i < l.length) :
    nth d l i ∈ l := by
  induction l generalizing i with
  | nil => simp at h
  | cons a l ih =>
    cases i with
    | zero => simp [nth]
    | succ j =>
      simp only [List.length_cons] at h
      exact List.mem_cons_of_mem a (ih (by omega))

theorem mem_setAt {l : List α} {i : Nat} {a x : α}
    (h : x ∈ setAt a l i) : x ∈ l ∨ x = a := by
  induction l generalizing i with
  | nil => simp [setAt] at h
  | cons b l ih =>
    cases i with
    | zero =>
      simp only [setAt, List.mem_cons] at h
      rcases h with h | h
      · exact Or.inr h
      · exact Or.inl (List.mem_cons_of_mem b h)
    | succ j =>
      simp only [setAt, List.mem_cons] at h
      rcases h with h | h
      · exact Or.inl (by simp [h])
      · rcases ih h with h' | h'
        · exact Or.inl (List.mem_cons_of_mem b h')
        · exact Or.inr h'

theorem mem_spliceRemove {l : List α} {i : Nat} {x : α}
    (h : x ∈ spliceRemove l i) : x ∈ l := by
  induction l generalizing i with
  | nil => simp [spliceRemove] at h
  | cons b l ih =>
    cases i with
    | zero => exact List.mem_cons_of_mem b h
    | succ j =>
      simp only [spliceRemove, List.mem_cons] at h
      rcases h with h | h
      · simp [h]
      · exact List.mem_cons_of_mem b (ih h)

theorem mem_spliceInsert {l : List α} {i : Nat} {a x : α}
    (h : x ∈ spliceInsert a l i) : x ∈ l ∨ x = a := by
  induction l generalizing i with
  | nil =>
    cases i with
    | zero => simp only [spliceInsert, List.mem_singleton] at h; exact Or.inr h
    | succ j => simp only [spliceInsert, List.mem_singleton] at h; exact Or.inr h
  | cons b l ih =>
    cases i with
    | zero =>
      simp only [spliceInsert, List.mem_cons] at h
      rcases h with h | h
      · exact Or.inr h
      · exact Or.inl (List.mem_cons.mpr h)
    | succ j =>
      simp only [spliceInsert, List.mem_cons] at h
      rcases h with h | h
      · exact Or.inl (by simp [h])
      · rcases ih h with h' | h'
        · exact Or.inl (List.mem_cons_of_mem b h')
        · exact Or.inr h'

theorem nth_setAt_self {l : List α} {i : Nat} {a : α} (d : α)
    (h : i < l.length) : nth d (setAt a l i) i = a := by
  induction l generalizing i with
  | nil => simp at h
  | cons b l ih =>
    cases i with
    | zero => rfl
    | succ j =>
      simp only [List.length_cons] at h
      exact ih (by omega)

theorem findIndex_setAt {p : α → Bool} {l : List α} {i : Nat} {a : α}
    (h : findIndex p l = some i) (ha : p a = true) :
    findIndex p (setAt a l i) = some i := by
  induction l generalizing i with
  | nil => simp [findIndex] at h
  | cons b l ih =>
    simp only [findIndex] at h
    split at h
    · simp only [Option.some.injEq] at h
      subst h
      simp [setAt, findIndex, ha]
    · cases hfl : findIndex p l with
      | none => rw [hfl] at h; simp at h
      | some j =>
        rw [hfl] at h
        simp only [Option.map_some', Option.some.injEq] at h
        subst h
        simp only [setAt, findIndex]
        split
        · next hb => simp_all
        · rw [ih hfl]
          rfl

theorem setAt_setAt {l : List α} {i : Nat} {a b : α} :
    setAt b (setAt a l i) i = setAt b l i := by
  induction l generalizing i with
  | nil => rfl
  | cons c l ih =>
    cases i with
    | zero => rfl
    | succ j => simp [setAt, ih]

theorem spliceInsert_spliceRemove {l : List α} {i : Nat} (d : α)
    (h : i < l.length) : spliceInsert (nth d l i) (spliceRemove l i) i = l := by
  induction l generalizing i with
  | nil => simp at h
  | cons b l ih =>
    cases i with
    | zero => simp [spliceRemove, nth, spliceInsert]
    | succ j =>
      simp only [List.length_cons] at h
      have hj := ih (show j < l.length by omega)
      simp [spliceRemove, nth, spliceInsert, hj]

theorem length_setAt {l : List α} {i : Nat} {a : α} :
    (setAt a l i).length = l.length := by
  induction l generalizing i with
  | nil => rfl
  | cons b l ih =>
    cases i with
    | zero => rfl
    | succ j => simp [setAt, ih]

theorem length_spliceRemove {l : List α} {i : Nat} (h : i < l.length) :
    (spliceRemove l i).length + 1 = l.length := by
  induction l generalizing i with
  | nil => simp at h
  | cons b l ih =>
    cases i with
    | zero => rfl
    | succ j =>
      simp only [List.length_cons] at h
      simp only [spliceRemove, List.length_cons]
      rw [ih (by omega)]

theorem setAt_nth_self {l : List α} {i : Nat} (d : α) (h : i < l.length) :
    setAt (nth d l i) l i = l := by
  induction l generalizing i with
  | nil => rfl
  | cons b l ih =>
    cases i with
    | zero => rfl
    | succ j =>
      simp only [List.length_cons] at h
      have hj := ih (show j < l.length by omega)
      simp [setAt, nth, hj]

theorem spliceInsert_ge {l : List α} {i : Nat} {a : α}
    (h : l.length ≤ i) : spliceInsert a l i = l ++ [a] := by
  induction l generalizing i with
  | nil =>
    cases i with
    | zero => rfl
    | succ j => rfl
  | cons b l ih =>
    cases i with
    | zero => simp at h
    | succ j =>
      simp only [List.length_cons] at h
      have hj := ih (show l.length ≤ j by omega)
      simp [spliceInsert, hj]

/- Concrete sample data shared by witnesses and counterexamples. -/

/-- Sample task in the default state produced by the store. -/
def sampleTask : Task :=
  { id := 1, text := "a", completed := false, priority := "medium",
    category := "personal", dueDate := none, tags := [], notes := "",
    subtasks := [], createdAt := "A", completedAt := none }

/-- Sample model holding the one sample task. -/
def sampleModel : TaskModel :=
  { tasks := [sampleTask], deletedTask := none }

/-- Sample completed task, with completedAt consistently set. -/
def sampleDone : Task :=
  { sampleTask with completed := true, completedAt := some "T0" }

/- Claim C1.  The claim says a draft whose text is empty after trimming
makes add a no-op returning a failure sentinel.  In the code addTask
performs no emptiness check at all (the check lives in the presentation
layer), so the task is created anyway, with empty text. -/

/-- C1 counterexample: adding a draft whose text is all blanks grows the
collection by one task (so add is not a no-op) and returns a created task
with empty text (not a failure sentinel). -/
theorem c1_addTask_accepts_empty_cex :
    (addTask { tasks := [], deletedTask := none } { text := "   " } 5 "T").2.tasks ≠ [] ∧
    (addTask { tasks := [], deletedTask := none } { text := "   " } 5 "T").1.text = "" := by
  decide

/-- C1 (amended): for every draft whose text is empty after trimming, add
still creates a task — its text is the empty string — and prepends it to
the collection, returning the created task; the empty-text rejection is
performed by the caller before the store is reached, not by add itself. -/
theorem c1_addTask_empty_text_creates (m : TaskModel) (d : Draft)
    (nowMs : Int) (nowISO : String) (h : jsTrim d.text = "") :
    (addTask m d nowMs nowISO).1.text = "" ∧
    (addTask m d nowMs nowISO).2.tasks =
      (addTask m d nowMs nowISO).1 :: m.tasks ∧
    (addTask m d nowMs nowISO).2.tasks.length = m.tasks.length + 1 := by
  refine ⟨by simp [addTask, h], rfl, by simp [addTask]⟩

/-- C1 witness: the amended theorem applied to a concrete blank draft. -/
theorem c1_addTask_empty_text_creates_witness :
    (addTask sampleModel { text := " " } 5 "T").1.text = "" ∧
    (addTask sampleModel { text := " " } 5 "T").2.tasks.length = 2 :=
  ⟨(c1_addTask_empty_text_creates sampleModel { text := " " } 5 "T" (by decide)).1,
   (c1_addTask_empty_text_creates sampleModel { text := " " } 5 "T" (by decide)).2.2⟩

/- Claim C3.  Toggling twice restores the completed flag, but completedAt
is regenerated: for a task that was already completed, the second toggle
stamps the current time, which differs from the stored timestamp. -/

/-- C3 counterexample: toggling a completed task twice replaces its
completedAt value T0 by the second toggle timestamp T2, so the original
value is not restored. -/
theorem c3_toggleTask_twice_cex :
    (nth default (toggleTask (toggleTask
        { tasks := [sampleDone], deletedTask := none } 1 "T1").2
        1 "T2").2.tasks 0).completedAt = some "T2" ∧
    sampleDone.completedAt = some "T0" ∧
    (some "T2" : Option String) ≠ some "T0" := by
  decide

/-- C3 (amended): toggling the same present identity twice always restores
the completed flag; afterwards completedAt is null when the task was
originally incomplete and is the second toggle timestamp when it was
originally complete, so the original completed and completedAt values are
both restored exactly in the incomplete case (with completedAt null, as
the invariant demands), and then the whole model is restored. -/
theorem c3_toggleTask_twice (m : TaskModel) (id : Int) (iso1 iso2 : String)
    (idx : Nat) (h : findIndex (fun t => t.id == id) m.tasks = some idx) :
    (toggleTask (toggleTask m id iso1).2 id iso2).2.tasks =
      setAt { nth default m.tasks idx with
              completedAt := if (nth default m.tasks idx).completed
                             then some iso2 else none } m.tasks idx ∧
    ((nth default m.tasks idx).completed = false →
      (nth default m.tasks idx).completedAt = none →
      (toggleTask (toggleTask m id iso1).2 id iso2).2 = m) := by
  have hlt := findIndex_lt_length h
  have hp : ((nth default m.tasks idx).id == id) = true := findIndex_nth default h
  have hdouble : ∀ t : Task, toggledTask (toggledTask t iso1) iso2 =
      { t with completedAt := if t.completed then some iso2 else none } := by
    intro t
    cases t
    simp [toggledTask, Bool.not_not]
  have e1 : (toggleTask m id iso1).2 =
      { m with tasks :=
          setAt (toggledTask (nth default m.tasks idx) iso1) m.tasks idx } := by
    simp only [toggleTask, h]
  have hp1 : ((toggledTask (nth default m.tasks idx) iso1).id == id) = true := hp
  have hf1 : findIndex (fun t => t.id == id)
      (setAt (toggledTask (nth default m.tasks idx) iso1) m.tasks idx) = some idx :=
    findIndex_setAt h hp1
  have hn1 : nth default
      (setAt (toggledTask (nth default m.tasks idx) iso1) m.tasks idx) idx =
      toggledTask (nth default m.tasks idx) iso1 :=
    nth_setAt_self default hlt
  constructor
  · rw [e1]
    simp only [toggleTask, hf1, hn1, setAt_setAt, hdouble]
  · intro hc hca
    rw [e1]
    simp only [toggleTask, hf1, hn1, setAt_setAt, hdouble, hc]
    have heq : ({ nth default m.tasks idx with
        completed := false, completedAt := none } : Task) =
        nth default m.tasks idx := by
      conv_rhs => rw [show nth default m.tasks idx =
        { nth default m.tasks idx with
          completed := (nth default m.tasks idx).completed
          completedAt := (nth default m.tasks idx).completedAt } from rfl]
      rw [hca, hc]
    simp only [Bool.false_eq_true, if_false, heq, setAt_nth_self default hlt]

/-- C3 witness: a fresh incomplete task is fully restored by a double
toggle. -/
theorem c3_toggleTask_twice_witness :
    (toggleTask (toggleTask sampleModel 1 "T1").2 1 "T2").2 = sampleModel :=
  (c3_toggleTask_twice sampleModel 1 "T1" "T2" 0 rfl).2 rfl rfl

/- Claim C4.  The spread { ...task, ...patch } merges every field the
patch provides, id and createdAt included: nothing shields them. -/

/-- C4 counterexample: a patch carrying id and createdAt overwrites both
fields of the matching task, so update does let a patch alter id and
createdAt. -/
theorem c4_updateTask_alters_id_createdAt_cex :
    (updateTask sampleModel 1 { id := some 99, createdAt := some "B" }).2.tasks.map Task.id = [99] ∧
    sampleModel.tasks.map Task.id = [1] ∧
    (updateTask sampleModel 1 { id := some 99, createdAt := some "B" }).2.tasks.map Task.createdAt = ["B"] ∧
    sampleModel.tasks.map Task.createdAt = ["A"] := by
  decide

/-- C4 (amended): update merges exactly the provided patch fields into the
first task matching the id — a field absent from the patch is kept, and a
provided field overwrites the old value, id and createdAt included; when
no task matches, update returns the not-found sentinel and leaves the
model unchanged. -/
theorem c4_updateTask_spec (m : TaskModel) (id : Int) (p : Patch) :
    ((∀ t ∈ m.tasks, t.id ≠ id) → updateTask m id p = (none, m)) ∧
    (∀ idx, findIndex (fun t => t.id == id) m.tasks = some idx →
      updateTask m id p =
        (some (mergePatch (nth default m.tasks idx) p),
         { m with tasks := setAt (mergePatch (nth default m.tasks idx) p) m.tasks idx }) ∧
      (p.id = none →
        (mergePatch (nth default m.tasks idx) p).id = (nth default m.tasks idx).id) ∧
      (p.createdAt = none →
        (mergePatch (nth default m.tasks idx) p).createdAt =
          (nth default m.tasks idx).createdAt) ∧
      (∀ v, p.id = some v → (mergePatch (nth default m.tasks idx) p).id = v) ∧
      (∀ v, p.createdAt = some v →
        (mergePatch (nth default m.tasks idx) p).createdAt = v) ∧
      (p.text = none →
        (mergePatch (nth default m.tasks idx) p).text = (nth default m.tasks idx).text) ∧
      (∀ v, p.text = some v → (mergePatch (nth default m.tasks idx) p).text = v)) := by
  constructor
  · intro hno
    have hnone : findIndex (fun t => t.id == id) m.tasks = none :=
      findIndex_eq_none fun x hx => by simpa using hno x hx
    simp [updateTask, hnone]
  · intro idx hidx
    refine ⟨by simp [updateTask, hidx], ?_, ?_, ?_, ?_, ?_, ?_⟩
    · intro hv; simp [mergePatch, hv]
    · intro hv; simp [mergePatch, hv]
    · intro v hv; simp [mergePatch, hv]
    · intro v hv; simp [mergePatch, hv]
    · intro hv; simp [mergePatch, hv]
    · intro v hv; simp [mergePatch, hv]

/-- C4 witness: updating the sample task with a text-only patch keeps id
and createdAt and rewrites text. -/
theorem c4_updateTask_spec_witness :
    updateTask sampleModel 1 { text := some "b" } =
      (some { sampleTask with text := "b" },
       { tasks := [{ sampleTask with text := "b" }], deletedTask := none }) := by
  have h := ((c4_updateTask_spec sampleModel 1 { text := some "b" }).2 0 rfl).1
  exact h

/- Claim C2.  The completed/completedAt invariant. -/

/-- Completion invariant of a single task: the completed flag agrees with
completedAt being set. -/
def TaskInv (t : Task) : Prop := t.completed = t.completedAt.isSome

instance (t : Task) : Decidable (TaskInv t) := by
  unfold TaskInv
  infer_instance

/-- Completion invariant of the whole store: every task in the collection,
and the task buffered for undo if any, satisfies the task invariant. -/
def ModelInv (m : TaskModel) : Prop :=
  (∀ t ∈ m.tasks, TaskInv t) ∧ (∀ e ∈ m.deletedTask.toList, TaskInv e.1)

instance (m : TaskModel) : Decidable (ModelInv m) := by
  unfold ModelInv
  infer_instance

/-- Replacing one collection entry by an invariant-satisfying task keeps
the model invariant. -/
theorem modelInv_setAt {m : TaskModel} (hm : ModelInv m) {t' : Task}
    (ht : TaskInv t') (idx : Nat) :
    ModelInv { m with tasks := setAt t' m.tasks idx } := by
  refine ⟨fun x hx => ?_, hm.2⟩
  rcases mem_setAt hx with h | h
  · exact hm.1 x h
  · subst h
    exact ht

/-- The toggle flip establishes the task invariant unconditionally. -/
theorem taskInv_toggledTask (t : Task) (iso : String) :
    TaskInv (toggledTask t iso) := by
  cases ht : t.completed <;> simp [toggledTask, TaskInv, ht]

/-- C2 counterexample: updating a valid task with a patch that provides
completed but not completedAt produces a task with completed true and
completedAt null, and importing an element of the same shape does too, so
update and import do not preserve the invariant. -/
theorem c2_invariant_broken_cex :
    ModelInv sampleModel ∧
    ¬ ModelInv (updateTask sampleModel 1 { completed := some true }).2 ∧
    ¬ ModelInv (importTasks sampleModel
        (Json.arr [Json.obj [("completed", Json.bool true)]])
        (fun _ => 7) "N").2 := by
  decide

/-- C2 (amended): all Task Store operations except update and import —
namely add, toggleCompletion, delete, undoDelete, clearCompleted,
addSubtask, toggleSubtask and setNotes — preserve, for every task in the
collection and in the undo buffer, the invariant that completed is true
exactly when completedAt is set; update and import can break it when the
patch or payload pairs completed inconsistently with completedAt. -/
theorem c2_invariant_preservation (m : TaskModel) (hm : ModelInv m)
    (d : Draft) (id taskId subtaskId nowMs : Int) (text nowISO : String) :
    ModelInv (addTask m d nowMs nowISO).2 ∧
    ModelInv (toggleTask m id nowISO).2 ∧
    ModelInv (deleteTask m id).2 ∧
    ModelInv (undoDelete m).2 ∧
    ModelInv (clearCompleted m) ∧
    ModelInv (addSubtask m taskId text nowMs).2 ∧
    ModelInv (toggleSubtask m taskId subtaskId).2 ∧
    ModelInv (updateNotes m taskId text).2 := by
  refine ⟨⟨fun x hx => ?_, hm.2⟩, ?_, ?_, ?_, ?_, ?_, ?_, ?_⟩
  · rcases List.mem_cons.mp (by simpa [addTask] using hx) with h | h
    · subst h
      rfl
    · exact hm.1 x h
  · cases hfi : findIndex (fun t => t.id == id) m.tasks with
    | none => simpa [toggleTask, hfi] using hm
    | some idx =>
      simp only [toggleTask, hfi]
      exact modelInv_setAt hm (taskInv_toggledTask _ _) idx
  · cases hfi : findIndex (fun t => t.id == id) m.tasks with
    | none => simpa [deleteTask, hfi] using hm
    | some idx =>
      simp only [deleteTask, hfi]
      refine ⟨fun x hx => hm.1 x (mem_spliceRemove hx), fun e he => ?_⟩
      have : e = (nth default m.tasks idx, idx) := by simpa using he
      subst this
      exact hm.1 _ (nth_mem default (findIndex_lt_length hfi))
  · cases hdel : m.deletedTask with
    | none => simpa [undoDelete, hdel] using hm
    | some e =>
      obtain ⟨t, idx⟩ := e
      simp only [undoDelete, hdel]
      refine ⟨fun x hx => ?_, by simp⟩
      rcases mem_spliceInsert hx with h | h
      · exact hm.1 x h
      · subst h
        exact hm.2 (x, idx) (by simp [hdel])
  · exact ⟨fun x hx => hm.1 x (List.mem_filter.mp hx).1, hm.2⟩
  · cases hfi : findIndex (fun t => t.id == taskId) m.tasks with
    | none => simpa [addSubtask, hfi] using hm
    | some idx =>
      by_cases ht : jsTrim text = ""
      · simpa [addSubtask, hfi, ht] using hm
      · simp only [addSubtask, hfi, ht, if_false]
        refine modelInv_setAt hm ?_ idx
        have hin := hm.1 (nth default m.tasks idx)
          (nth_mem default (findIndex_lt_length hfi))
        exact hin
  · cases hfi : findIndex (fun t => t.id == taskId) m.tasks with
    | none => simpa [toggleSubtask, hfi] using hm
    | some idx =>
      cases hfs : findIndex (fun s => s.id == subtaskId)
          (nth default m.tasks idx).subtasks with
      | none => simpa [toggleSubtask, hfi, hfs] using hm
      | some j =>
        simp only [toggleSubtask, hfi, hfs]
        refine modelInv_setAt hm ?_ idx
        have hin := hm.1 (nth default m.tasks idx)
          (nth_mem default (findIndex_lt_length hfi))
        exact hin
  · cases hfi : findIndex (fun t => t.id == taskId) m.tasks with
    | none => simpa [updateNotes, hfi] using hm
    | some idx =>
      simp only [updateNotes, hfi]
      refine modelInv_setAt hm ?_ idx
      have hin := hm.1 (nth default m.tasks idx)
        (nth_mem default (findIndex_lt_length hfi))
      exact hin

/-- C2 witness: the preservation theorem applied to the sample model and a
concrete toggle. -/
theorem c2_invariant_preservation_witness :
    ModelInv sampleModel ∧ ModelInv (toggleTask sampleModel 1 "T1").2 :=
  ⟨by decide,
   (c2_invariant_preservation sampleModel (by decide)
      { text := "x" } 1 1 1 2 "s" "T1").2.1⟩

/- Claim C6.  Identity generation: addTask takes the id from Date.now(),
so two adds within the same millisecond collide. -/

/-- C6 counterexample: two adds sharing one clock reading produce two tasks
with the same identity, so the generated identity is not always distinct
from the identities already in the collection. -/
theorem c6_addTask_duplicate_id_cex :
    (addTask (addTask { tasks := [], deletedTask := none }
        { text := "a" } 5 "T").2 { text := "b" } 5 "T").1.id = 5 ∧
    (addTask { tasks := [], deletedTask := none }
        { text := "a" } 5 "T").2.tasks.map Task.id = [5] ∧
    ¬ ((addTask (addTask { tasks := [], deletedTask := none }
        { text := "a" } 5 "T").2 { text := "b" } 5 "T").2.tasks.map Task.id).Nodup := by
  decide

/-- C6 (amended): add assigns the Date.now() clock reading as the new
identity, so the new identity is distinct from all existing identities
exactly when that reading differs from every id already in the collection
(as under a strictly increasing clock, but not when two adds fall in the
same millisecond); in that case a duplicate-free id collection stays
duplicate-free. -/
theorem c6_addTask_fresh_id (m : TaskModel) (d : Draft) (nowMs : Int)
    (nowISO : String) (h1 : ∀ t ∈ m.tasks, t.id ≠ nowMs)
    (h2 : (m.tasks.map Task.id).Nodup) :
    (addTask m d nowMs nowISO).1.id = nowMs ∧
    (addTask m d nowMs nowISO).2.tasks.map Task.id =
      nowMs :: m.tasks.map Task.id ∧
    ((addTask m d nowMs nowISO).2.tasks.map Task.id).Nodup := by
  refine ⟨rfl, by simp [addTask], ?_⟩
  have hmap : (addTask m d nowMs nowISO).2.tasks.map Task.id =
      nowMs :: m.tasks.map Task.id := by simp [addTask]
  rw [hmap, List.nodup_cons]
  refine ⟨fun hmem => ?_, h2⟩
  obtain ⟨t, ht, hid⟩ := List.mem_map.mp hmem
  exact h1 t ht hid

/-- C6 witness: adding to the sample model with a fresh clock value. -/
theorem c6_addTask_fresh_id_witness :
    (addTask sampleModel { text := "b" } 7 "T").1.id = 7 ∧
    ((addTask sampleModel { text := "b" } 7 "T").2.tasks.map Task.id).Nodup :=
  ⟨(c6_addTask_fresh_id sampleModel { text := "b" } 7 "T"
      (by decide) (by decide)).1,
   (c6_addTask_fresh_id sampleModel { text := "b" } 7 "T"
      (by decide) (by decide)).2.2⟩

/- Claim C7.  deleteTask semantics and its return value: the method returns
the undo-buffer object it just stored, not the bare removed task. -/

/-- C7 counterexample: delete returns the undo-buffer entry, the removed
task paired with its index, which is not the bare removed Task the claim
describes. -/
theorem c7_deleteTask_returns_entry_cex :
    (deleteTask sampleModel 1).1 = DeleteResult.entry sampleTask 0 ∧
    (deleteTask sampleModel 1).1 ≠ DeleteResult.task sampleTask := by
  decide

/-- C7 (amended): for every id, delete removes the first task matching id
from the collection (whose length drops by one), stores that task together
with its original index in the undo buffer, overwriting any previous
buffer entry, and returns that buffer entry — the removed Task paired with
its original index — rather than the bare Task; if id is absent it returns
the not-found sentinel and changes nothing. -/
theorem c7_deleteTask_spec (m : TaskModel) (id : Int) :
    ((∀ t ∈ m.tasks, t.id ≠ id) → deleteTask m id = (.null, m)) ∧
    (∀ idx, findIndex (fun t => t.id == id) m.tasks = some idx →
      (nth default m.tasks idx).id = id ∧
      deleteTask m id =
        (.entry (nth default m.tasks idx) idx,
         { tasks := spliceRemove m.tasks idx,
           deletedTask := some (nth default m.tasks idx, idx) }) ∧
      (deleteTask m id).2.tasks.length + 1 = m.tasks.length) := by
  constructor
  · intro hno
    have hnone : findIndex (fun t => t.id == id) m.tasks = none :=
      findIndex_eq_none fun x hx => by simpa using hno x hx
    simp [deleteTask, hnone]
  · intro idx hidx
    refine ⟨?_, by simp [deleteTask, hidx], ?_⟩
    · simpa using findIndex_nth default hidx
    · simp only [deleteTask, hidx]
      exact length_spliceRemove (findIndex_lt_length hidx)

/-- C7 witness: deleting the sample task stores and returns the pair of
the task and index 0. -/
theorem c7_deleteTask_spec_witness :
    deleteTask sampleModel 1 =
      (DeleteResult.entry sampleTask 0,
       { tasks := [], deletedTask := some (sampleTask, 0) }) :=
  ((c7_deleteTask_spec sampleModel 1).2 0 rfl).2.1

/- Claim C8.  undoDelete semantics. -/

/-- C8: undoDelete immediately after a successful delete reinserts the very
task that was removed at its original index, restoring the collection
exactly, clears the buffer, and returns the restored task; in general a
buffered entry is reinserted at its stored index, landing at the end when
the collection has shrunk below that index; and with an empty buffer it
returns the no-op sentinel and changes nothing. -/
theorem c8_undoDelete_spec (m : TaskModel) (id : Int) :
    (m.deletedTask = none → undoDelete m = (none, m)) ∧
    (∀ t idx, m.deletedTask = some (t, idx) →
      undoDelete m = (some t,
        { tasks := spliceInsert t m.tasks idx, deletedTask := none }) ∧
      (m.tasks.length ≤ idx → (undoDelete m).2.tasks = m.tasks ++ [t])) ∧
    (∀ idx, findIndex (fun t => t.id == id) m.tasks = some idx →
      undoDelete (deleteTask m id).2 =
        (some (nth default m.tasks idx),
         { tasks := m.tasks, deletedTask := none })) := by
  refine ⟨fun h => by simp [undoDelete, h], fun t idx h => ?_, fun idx h => ?_⟩
  · refine ⟨by simp [undoDelete, h], fun hlen => ?_⟩
    simp [undoDelete, h, spliceInsert_ge hlen]
  · have hlt := findIndex_lt_length h
    simp only [deleteTask, h, undoDelete]
    rw [spliceInsert_spliceRemove default hlt]

/-- C8 witness: delete then undo on the sample model restores it. -/
theorem c8_undoDelete_spec_witness :
    undoDelete (deleteTask sampleModel 1).2 = (some sampleTask, sampleModel) :=
  (c8_undoDelete_spec sampleModel 1).2.2 0 rfl

/- Claim C5.  importTasks failure conditions: besides the non-array check,
the per-element coercion throws on a null element (property access on
null), and the catch turns that into a failure as well. -/

/-- Coercion of a non-nullish element never throws. -/
theorem coerceTask_ok {p : Json} (fid : Int) (iso : String)
    (h : isNullish p = false) :
    coerceTask p fid iso = .ok (coerceFields p fid iso) := by
  simp [coerceTask, h]

/-- Coercion of a nullish element always throws. -/
theorem coerceTask_error {p : Json} (fid : Int) (iso : String)
    (h : isNullish p = true) : coerceTask p fid iso = .error () := by
  simp [coerceTask, h]

/-- A payload array of non-nullish elements coerces as a whole, one task
per element. -/
theorem coerceAll_ok {es : List Json} (fresh : Nat → Int) (iso : String)
    (h : ∀ p ∈ es, isNullish p = false) :
    ∀ i, ∃ ts, coerceAll fresh iso i es = .ok ts ∧ ts.length = es.length := by
  induction es with
  | nil => exact fun i => ⟨[], rfl, rfl⟩
  | cons p ps ih =>
    intro i
    have hp := coerceTask_ok (fresh i) iso (h p (by simp))
    obtain ⟨ts, hts, hlen⟩ := ih (fun q hq => h q (by simp [hq])) (i + 1)
    exact ⟨coerceFields p (fresh i) iso :: ts,
      by simp [coerceAll, hp, hts], by simp [hlen]⟩

/-- A payload array containing a nullish element fails as a whole. -/
theorem coerceAll_error {es : List Json} (fresh : Nat → Int) (iso : String)
    (h : ∃ p ∈ es, isNullish p = true) :
    ∀ i, coerceAll fresh iso i es = .error () := by
  induction es with
  | nil => simp at h
  | cons p ps ih =>
    intro i
    by_cases hp : isNullish p = true
    · simp [coerceAll, coerceTask_error (fresh i) iso hp]
    · obtain ⟨q, hq, hqt⟩ := h
      rcases List.mem_cons.mp hq with rfl | hq'
      · exact absurd hqt hp
      · have hrest := ih ⟨q, hq', hqt⟩ (i + 1)
        cases hcp : coerceTask p (fresh i) iso <;> simp [coerceAll, hcp, hrest]

/-- C5 counterexample: the payload that parses to [null] is a sequence,
yet the import fails — the per-element property access throws on the null
element — and leaves the existing collection untouched, so not every
sequence payload succeeds. -/
theorem c5_importTasks_null_element_cex :
    importTasks sampleModel (Json.arr [Json.null]) (fun _ => 7) "N" =
      (false, sampleModel) ∧ sampleModel.tasks ≠ [] :=
  ⟨rfl, by decide⟩

/-- C5 (amended): importSnapshot fails, leaving the model untouched,
exactly when the payload is not a sequence or is a sequence containing a
null element (whose property access throws inside the element map); every
sequence of non-null elements succeeds, replacing the collection with one
coerced task per payload element and leaving the undo buffer alone. -/
theorem c5_importTasks_spec (m : TaskModel) (payload : Json)
    (fresh : Nat → Int) (nowISO : String) :
    ((∀ es, payload ≠ Json.arr es) →
      importTasks m payload fresh nowISO = (false, m)) ∧
    (∀ es, payload = Json.arr es →
      ((∀ p ∈ es, isNullish p = false) →
        ∃ ts, coerceAll fresh nowISO 0 es = .ok ts ∧
          importTasks m payload fresh nowISO = (true, { m with tasks := ts }) ∧
          ts.length = es.length) ∧
      ((∃ p ∈ es, isNullish p = true) →
        importTasks m payload fresh nowISO = (false, m))) ∧
    ((importTasks m payload fresh nowISO).1 = false →
      (importTasks m payload fresh nowISO).2 = m) := by
  refine ⟨?_, ?_, ?_⟩
  · intro hne
    cases payload with
    | arr es => exact absurd rfl (hne es)
    | null => rfl
    | undefined => rfl
    | bool b => rfl
    | num n => rfl
    | str s => rfl
    | obj fs => rfl
  · intro es hpe
    subst hpe
    constructor
    · intro hok
      obtain ⟨ts, hts, hlen⟩ := coerceAll_ok fresh nowISO hok 0
      exact ⟨ts, hts, by simp [importTasks, hts], hlen⟩
    · intro hbad
      simp [importTasks, coerceAll_error fresh nowISO hbad 0]
  · intro hfail
    cases payload with
    | arr es =>
      cases hca : coerceAll fresh nowISO 0 es with
      | ok ts => simp [importTasks, hca] at hfail
      | error e => simp [importTasks, hca]
    | null => rfl
    | undefined => rfl
    | bool b => rfl
    | num n => rfl
    | str s => rfl
    | obj fs => rfl

/-- C5 witness: the spec example payload, a plain string, is rejected with
the previous collection retained. -/
theorem c5_importTasks_spec_witness :
    importTasks sampleModel (Json.str "not an array") (fun _ => 7) "N" =
      (false, sampleModel) :=
  (c5_importTasks_spec sampleModel (Json.str "not an array")
      (fun _ => 7) "N").1 (fun _ h => Json.noConfusion h)

/- Claim C9.  Export/import round trip.  The coercion regenerates a falsy
id and replaces any falsy field with its default, so the round trip is the
identity only on tasks whose fields are all truthy where the coercion
checks truthiness. -/

/-- Field lookups on a serialized task, one per stored field. -/
theorem getField_id (t : Task) : getFieldD (taskToJson t) "id" = .num t.id := rfl

/-- Field lookup of the serialized text. -/
theorem getField_text (t : Task) :
    getFieldD (taskToJson t) "text" = .str t.text := rfl

/-- Field lookup of the serialized completed flag. -/
theorem getField_completed (t : Task) :
    getFieldD (taskToJson t) "completed" = .bool t.completed := rfl

/-- Field lookup of the serialized priority. -/
theorem getField_priority (t : Task) :
    getFieldD (taskToJson t) "priority" = .str t.priority := rfl

/-- Field lookup of the serialized category. -/
theorem getField_category (t : Task) :
    getFieldD (taskToJson t) "category" = .str t.category := rfl

/-- Field lookup of the serialized due date. -/
theorem getField_dueDate (t : Task) :
    getFieldD (taskToJson t) "dueDate" =
      (match t.dueDate with | some s => .str s | none => .null) := rfl

/-- Field lookup of the serialized tags. -/
theorem getField_tags (t : Task) :
    getFieldD (taskToJson t) "tags" = .arr (t.tags.map Json.str) := rfl

/-- Field lookup of the serialized notes. -/
theorem getField_notes (t : Task) :
    getFieldD (taskToJson t) "notes" = .str t.notes := rfl

/-- Field lookup of the serialized subtasks. -/
theorem getField_subtasks (t : Task) :
    getFieldD (taskToJson t) "subtasks" =
      .arr (t.subtasks.map subtaskToJson) := rfl

/-- Field lookup of the serialized creation time. -/
theorem getField_createdAt (t : Task) :
    getFieldD (taskToJson t) "createdAt" = .str t.createdAt := rfl

/-- Field lookup of the serialized completion time. -/
theorem getField_completedAt (t : Task) :
    getFieldD (taskToJson t) "completedAt" =
      (match t.completedAt with | some s => .str s | none => .null) := rfl

/-- A serialized task is an object, on which property access is safe. -/
theorem isNullish_taskToJson (t : Task) : isNullish (taskToJson t) = false := rfl

/-- String serialization followed by the JS String conversion is the
identity, elementwise on a tag list. -/
theorem map_jsToString_str (l : List String) :
    (l.map Json.str).map jsToString = l := by
  induction l with
  | nil => rfl
  | cons s ss ih => simp [jsToString, ih]

/-- Round trip of one subtask through serialization and coercion. -/
theorem coerceSubtask_subtaskToJson (st : Subtask) :
    coerceSubtask (subtaskToJson st) = st := rfl

/-- Round trip of a subtask list. -/
theorem map_coerceSubtask (l : List Subtask) :
    (l.map subtaskToJson).map coerceSubtask = l := by
  induction l with
  | nil => rfl
  | cons s ss ih => simp [coerceSubtask_subtaskToJson, ih]

/-- Tasks whose fields survive the import coercion unchanged: a nonzero id
(zero is falsy, so it would be regenerated), truthy priority, category and
createdAt strings (a falsy one falls back to its default), and no
empty-string dueDate or completedAt (a falsy one becomes null). -/
def WellFormedTask (t : Task) : Prop :=
  t.id ≠ 0 ∧ t.priority ≠ "" ∧ t.category ≠ "" ∧ t.createdAt ≠ "" ∧
  t.dueDate ≠ some "" ∧ t.completedAt ≠ some ""

instance (t : Task) : Decidable (WellFormedTask t) := by
  unfold WellFormedTask
  infer_instance

/-- Round trip of one well-formed task through serialization and
the import coercion. -/
theorem coerceTask_roundtrip (t : Task) (fid : Int) (iso : String)
    (hw : WellFormedTask t) : coerceTask (taskToJson t) fid iso = .ok t := by
  obtain ⟨hid, hpr, hcat, hcr, hdue, hcompl⟩ := hw
  have hif : ∀ s : String, (if (s != "") = true then s else "") = s := by
    intro s
    by_cases h : s = "" <;> simp [h]
  rw [coerceTask_ok fid iso (isNullish_taskToJson t)]
  cases t with
  | mk id text completed priority category dueDate tags notes subtasks createdAt completedAt =>
  simp only [ne_eq] at hid hpr hcat hcr hdue hcompl
  cases dueDate with
  | none =>
    cases completedAt with
    | none =>
      simp [coerceFields, getField_id, getField_text, getField_completed,
        getField_priority, getField_category, getField_dueDate, getField_tags,
        getField_notes, getField_subtasks, getField_createdAt,
        getField_completedAt, toNumber, truthy, jsToString,
        map_jsToString_str, map_coerceSubtask, hid, hpr, hcat, hcr, hif]
      exact ⟨fun hx => hx.symm, by simpa using map_jsToString_str tags,
        fun hx => hx.symm, by simpa using map_coerceSubtask subtasks⟩
    | some sc =>
      have hsc : sc ≠ "" := fun hx => hcompl (by rw [hx])
      simp [coerceFields, getField_id, getField_text, getField_completed,
        getField_priority, getField_category, getField_dueDate, getField_tags,
        getField_notes, getField_subtasks, getField_createdAt,
        getField_completedAt, toNumber, truthy, jsToString,
        map_jsToString_str, map_coerceSubtask, hid, hpr, hcat, hcr, hif, hsc]
      exact ⟨fun hx => hx.symm, by simpa using map_jsToString_str tags,
        fun hx => hx.symm, by simpa using map_coerceSubtask subtasks⟩
  | some sd =>
    have hsd : sd ≠ "" := fun hx => hdue (by rw [hx])
    cases completedAt with
    | none =>
      simp [coerceFields, getField_id, getField_text, getField_completed,
        getField_priority, getField_category, getField_dueDate, getField_tags,
        getField_notes, getField_subtasks, getField_createdAt,
        getField_completedAt, toNumber, truthy, jsToString,
        map_jsToString_str, map_coerceSubtask, hid, hpr, hcat, hcr, hif, hsd]
      exact ⟨fun hx => hx.symm, by simpa using map_jsToString_str tags,
        fun hx => hx.symm, by simpa using map_coerceSubtask subtasks⟩
    | some sc =>
      have hsc : sc ≠ "" := fun hx => hcompl (by rw [hx])
      simp [coerceFields, getField_id, getField_text, getField_completed,
        getField_priority, getField_category, getField_dueDate, getField_tags,
        getField_notes, getField_subtasks, getField_createdAt,
        getField_completedAt, toNumber, truthy, jsToString,
        map_jsToString_str, map_coerceSubtask, hid, hpr, hcat, hcr, hif,
        hsd, hsc]
      exact ⟨fun hx => hx.symm, by simpa using map_jsToString_str tags,
        fun hx => hx.symm, by simpa using map_coerceSubtask subtasks⟩

/-- Round trip of a whole well-formed task list. -/
theorem coerceAll_roundtrip (l : List Task) (fresh : Nat → Int)
    (iso : String) (h : ∀ t ∈ l, WellFormedTask t) :
    ∀ i, coerceAll fresh iso i (l.map taskToJson) = .ok l := by
  induction l with
  | nil => exact fun i => rfl
  | cons t ts ih =>
    intro i
    have ht := coerceTask_roundtrip t (fresh i) iso (h t (by simp))
    have hts := ih (fun q hq => h q (by simp [hq])) (i + 1)
    simp [coerceAll, ht, hts]

/-- C9 counterexample: a collection whose identities are well formed but
holding one task with an empty category does not round trip — the empty
string is falsy, so the import coercion replaces it with the default
category — even though the import itself succeeds. -/
theorem c9_roundtrip_cex :
    (∀ t ∈ ({ tasks := [{ sampleTask with category := "" }],
              deletedTask := none } : TaskModel).tasks, t.id ≠ 0) ∧
    (importTasks { tasks := [{ sampleTask with category := "" }], deletedTask := none }
      (exportTasks { tasks := [{ sampleTask with category := "" }], deletedTask := none })
      (fun _ => 7) "N").1 = true ∧
    (importTasks { tasks := [{ sampleTask with category := "" }], deletedTask := none }
      (exportTasks { tasks := [{ sampleTask with category := "" }], deletedTask := none })
      (fun _ => 7) "N").2.tasks.map Task.category = ["personal"] ∧
    ({ tasks := [{ sampleTask with category := "" }],
       deletedTask := none } : TaskModel).tasks.map Task.category = [""] := by
  decide

/-- C9 (amended): importSnapshot applied to exportSnapshot restores the
collection exactly — and reports success — provided every task is well
formed for the coercion: its id is nonzero and its priority, category and
createdAt are non-empty, and neither dueDate nor completedAt is the empty
string; well-formed identities alone do not suffice, since any falsy field
is replaced by its default on import. -/
theorem c9_export_import_roundtrip (m : TaskModel) (fresh : Nat → Int)
    (nowISO : String) (h : ∀ t ∈ m.tasks, WellFormedTask t) :
    importTasks m (exportTasks m) fresh nowISO = (true, m) := by
  have hall := coerceAll_roundtrip m.tasks fresh nowISO h 0
  simp [importTasks, exportTasks, hall]

/-- C9 witness: the sample model round trips. -/
theorem c9_export_import_roundtrip_witness :
    importTasks sampleModel (exportTasks sampleModel) (fun _ => 7) "N" =
      (true, sampleModel) :=
  c9_export_import_roundtrip sampleModel (fun _ => 7) "N" (by decide)

/- Claim C10.  The duedate sort key of the projection. -/

/-- Intended order of the duedate sort: dated tasks ascend by date value,
a task without dueDate never precedes a dated one, and two undated tasks
are unconstrained. -/
def dueLeB (dateVal : String → Int) (a b : Task) : Bool :=
  match a.dueDate, b.dueDate with
  | some da, some db => dateVal da ≤ dateVal db
  | none, some _ => false
  | _, none => true

/-- The due-date order is transitive. -/
theorem dueLeB_trans (dateVal : String → Int) {a b c : Task}
    (h1 : dueLeB dateVal a b = true) (h2 : dueLeB dateVal b c = true) :
    dueLeB dateVal a c = true := by
  cases ha : a.dueDate <;> cases hb : b.dueDate <;> cases hc : c.dueDate <;>
    simp [dueLeB, ha, hb, hc] at h1 h2 ⊢ <;> omega

/-- A non-positive comparator result entails the due-date order. -/
theorem cmpDue_le (dateVal : String → Int) {a b : Task}
    (h : cmpDue dateVal a b ≤ 0) : dueLeB dateVal a b = true := by
  cases ha : a.dueDate <;> cases hb : b.dueDate <;>
    simp [cmpDue, ha, hb, dueLeB] at h ⊢ <;> omega

/-- A positive comparator result entails the reverse due-date order. -/
theorem cmpDue_gt (dateVal : String → Int) {a b : Task}
    (h : ¬ cmpDue dateVal a b ≤ 0) : dueLeB dateVal b a = true := by
  cases ha : a.dueDate <;> cases hb : b.dueDate <;>
    simp [cmpDue, ha, hb, dueLeB] at h ⊢ <;> omega

/-- Membership in a stable insertion. -/
theorem mem_insertStable {c : α → α → Int} {a x : α} {l : List α}
    (h : x ∈ insertStable c a l) : x = a ∨ x ∈ l := by
  induction l with
  | nil => simpa [insertStable] using h
  | cons b bs ih =>
    by_cases hc : c a b ≤ 0
    · simp only [insertStable, if_pos hc] at h
      rcases List.mem_cons.mp h with rfl | h'
      · exact Or.inl rfl
      · exact Or.inr h'
    · simp only [insertStable, if_neg hc] at h
      rcases List.mem_cons.mp h with rfl | h'
      · exact Or.inr (by simp)
      · rcases ih h' with rfl | hx
        · exact Or.inl rfl
        · exact Or.inr (List.mem_cons_of_mem b hx)

/-- Stable insertion preserves orderedness for any relation implied by
the comparator signs, when that relation is transitive. -/
theorem insertStable_pairwise {c : α → α → Int} {r : α → α → Prop}
    (h1 : ∀ x y, c x y ≤ 0 → r x y) (h2 : ∀ x y, ¬ c x y ≤ 0 → r y x)
    (htr : ∀ {x y z}, r x y → r y z → r x z)
    (a : α) {l : List α} (hl : l.Pairwise r) :
    (insertStable c a l).Pairwise r := by
  induction l with
  | nil => simp [insertStable]
  | cons b bs ih =>
    rcases List.pairwise_cons.mp hl with ⟨hb, hbs⟩
    by_cases hc : c a b ≤ 0
    · simp only [insertStable, if_pos hc]
      refine List.pairwise_cons.mpr ⟨?_, hl⟩
      intro x hx
      rcases List.mem_cons.mp hx with rfl | hx'
      · exact h1 _ _ hc
      · exact htr (h1 _ _ hc) (hb x hx')
    · simp only [insertStable, if_neg hc]
      refine List.pairwise_cons.mpr ⟨?_, ih hbs⟩
      intro x hx
      rcases mem_insertStable hx with rfl | hx'
      · exact h2 _ _ hc
      · exact hb x hx'

/-- Stable insertion permutes the pushed element into the list. -/
theorem insertStable_perm (c : α → α → Int) (a : α) (l : List α) :
    (insertStable c a l).Perm (a :: l) := by
  induction l with
  | nil => rfl
  | cons b bs ih =>
    by_cases hc : c a b ≤ 0
    · simp [insertStable, hc]
    · simp only [insertStable, if_neg hc]
      exact (ih.cons b).trans (List.Perm.swap a b bs)

/-- The comparator sort produces a list ordered by any transitive relation
implied by the comparator signs. -/
theorem jsSort_pairwise {c : α → α → Int} {r : α → α → Prop}
    (h1 : ∀ x y, c x y ≤ 0 → r x y) (h2 : ∀ x y, ¬ c x y ≤ 0 → r y x)
    (htr : ∀ {x y z}, r x y → r y z → r x z) (l : List α) :
    (jsSort c l).Pairwise r := by
  induction l with
  | nil => simp [jsSort]
  | cons a l ih => exact insertStable_pairwise h1 h2 htr a ih

/-- The comparator sort permutes its input. -/
theorem jsSort_perm (c : α → α → Int) (l : List α) : (jsSort c l).Perm l := by
  induction l with
  | nil => rfl
  | cons a l ih => exact (insertStable_perm c a (jsSort c l)).trans (ih.cons a)

/-- C10: with the duedate sort key the projection returns a permutation of
the filtered tasks in which, for every pair in output order, dated tasks
ascend by date value and a task without a dueDate never precedes a dated
one — for every date valuation, filter state and input list. -/
theorem c10_duedate_sort_spec (dateVal : String → Int) (state : FilterState)
    (tasks : List Task) (h : state.currentSort = "duedate") :
    (applyFiltersAndSort dateVal state tasks).Pairwise
      (fun a b => dueLeB dateVal a b = true) ∧
    (applyFiltersAndSort dateVal state tasks).Perm
      (applyFilters state tasks) := by
  have hunf : applyFiltersAndSort dateVal state tasks =
      jsSort (cmpDue dateVal) (applyFilters state tasks) := by
    simp [applyFiltersAndSort, h]
  rw [hunf]
  refine ⟨jsSort_pairwise ?_ ?_ ?_ _, jsSort_perm _ _⟩
  · exact fun x y hxy => cmpDue_le dateVal hxy
  · exact fun x y hxy => cmpDue_gt dateVal hxy
  · exact fun hxy hyz => dueLeB_trans dateVal hxy hyz

/-- C10 witness: the theorem applied to a concrete valuation, state and
list with both dated and undated tasks. -/
theorem c10_duedate_sort_spec_witness :
    (applyFiltersAndSort (fun s => (s.length : Int))
        { currentSort := "duedate" }
        [{ sampleTask with dueDate := none },
         { sampleTask with dueDate := some "aaa" },
         { sampleTask with dueDate := some "b" }]).Pairwise
      (fun a b => dueLeB (fun s => (s.length : Int)) a b = true) :=
  (c10_duedate_sort_spec (fun s => (s.length : Int))
      { currentSort := "duedate" }
      [{ sampleTask with dueDate := none },
       { sampleTask with dueDate := some "aaa" },
       { sampleTask with dueDate := some "b" }] rfl).1

end TodoList
